import Mathlib

/-!
# Verification of `degrees.py` (BFS degrees-of-separation search)

Shallow embedding of the repository source `src/degrees.py`.  Python dicts
become association lists (`List (String × _)`) with first-match lookup and
replace-in-place assignment, Python sets become lists reasoned about by
membership, and the unbounded `while True` search loop becomes a
fuel-indexed recursion; the fuel `|people| + 1` is proved sufficient
(`bfs_terminates`), so the embedding never reports fuel exhaustion on any
store and coincides with the source loop.
-/

set_option maxHeartbeats 1000000

namespace Degrees

/-- Value of the `people` table: `{"name": …, "birth": …, "movies": set()}`
(`src/degrees.py` line 29).  The movie set is modelled as a list reasoned
about by membership. -/
structure Person where
  name : String
  birth : String
  movies : List String
deriving DecidableEq, Repr

/-- Value of the `movies` table: `{"title": …, "year": …, "stars": set()}`
(`src/degrees.py` line 45). -/
structure Movie where
  title : String
  year : String
  stars : List String
deriving DecidableEq, Repr

/-- The in-memory tables of `degrees.py` (the module-level `people` and
`movies` dicts).  The `names` index only serves the interactive
disambiguation prompt, which no claim touches, so it is omitted. -/
structure Store where
  people : List (String × Person)
  movies : List (String × Movie)
deriving DecidableEq, Repr

/-- Python dict read `d[k]`: first binding wins; `none` models `KeyError`. -/
def dictGet {α : Type} : List (String × α) → String → Option α
  | [], _ => none
  | (k, v) :: rest, key => if k = key then some v else dictGet rest key

/-- Python dict write `d[k] = v`: replaces an existing binding in place,
otherwise appends at the end (insertion order, as Python dicts keep it). -/
def dictSet {α : Type} : List (String × α) → String → α → List (String × α)
  | [], key, v => [(key, v)]
  | (k, w) :: rest, key, v =>
      if k = key then (key, v) :: rest else (k, w) :: dictSet rest key v

/-- Python set `s.add(x)` on a set modelled as a duplicate-free list. -/
def setAdd (s : List String) (x : String) : List String :=
  if x ∈ s then s else s ++ [x]

/-- Inner loop of `neighbors_for_person` (`src/degrees.py` lines 185-187):
for each movie id, look the movie up (`movies[movie_id]`, a possible
`KeyError`, modelled by `none`) and pair its stars with the movie id. -/
def neighborsFromMovies (st : Store) : List String → Option (List (String × String))
  | [] => some []
  | m :: ms =>
    match dictGet st.movies m with
    | none => none
    | some mv =>
      match neighborsFromMovies st ms with
      | none => none
      | some rest => some (mv.stars.map (fun q => (m, q)) ++ rest)

/-- `neighbors_for_person` (`src/degrees.py` lines 178-188).  `none` models
the uncaught `KeyError` raised when `person_id` is not a people key or one
of the person's movie ids is not a movies key. -/
def neighbors_for_person (st : Store) (person_id : String) : Option (List (String × String)) :=
  match dictGet st.people person_id with
  | none => none
  | some p => neighborsFromMovies st p.movies

/-- Modelled from the spec: the `Node` class of the missing `util` module
("Search Node", spec §3): current state, the group (movie) edge taken to
reach it, and a parent link; the root has no parent and no action, and
`shortest_path` only ever builds a root or a fully-labelled child, which the
two constructors capture. -/
inductive Node where
  | root (state : String)
  | child (state : String) (action : String) (parent : Node)
deriving DecidableEq, Repr

def Node.state : Node → String
  | root s => s
  | child s _ _ => s

/-- Number of parent links above a node, i.e. the length of the path it
represents. -/
def Node.depth : Node → Nat
  | root _ => 0
  | child _ _ p => p.depth + 1

/-- Path reconstruction (`src/degrees.py` lines 131-135): collect
`(action, state)` pairs walking parent links, then reverse. -/
def pathFrom : Node → List (String × String)
  | .root _ => []
  | .child s a p => pathFrom p ++ [(a, s)]

/-- Modelled from the spec: `QueueFrontier.contains_state` of the missing
`util` module (spec §4.3, `containsState(state)`): membership test over the
currently queued nodes' states.  The frontier itself is the list of queued
nodes; `add` appends at the end and `removeOldest` takes the head (FIFO). -/
def containsState (frontier : List Node) (s : String) : Bool :=
  frontier.any (fun n => n.state == s)

/-- Neighbor-expansion loop of `shortest_path` (`src/degrees.py` lines
143-147): each `(movie_id, person_id)` pair is enqueued as a child node
unless its state is already in the frontier or in the explored set. -/
def addNeighbors (f : List Node) (explored : List String) (parent : Node) :
    List (String × String) → List Node
  | [] => f
  | (movie_id, person_id) :: rest =>
    if containsState f person_id = false ∧ person_id ∉ explored then
      addNeighbors (f ++ [Node.child person_id movie_id parent]) explored parent rest
    else
      addNeighbors f explored parent rest

/-- Outcome of `shortest_path`: a found path, the `None` ("not connected")
sentinel, or an uncaught `KeyError` escaping from `neighbors_for_person`. -/
inductive SearchResult where
  | found (path : List (String × String))
  | notConnected
  | keyError
deriving DecidableEq, Repr

/-- The `while True` search loop of `shortest_path` (`src/degrees.py` lines
121-147), indexed by fuel.  `none` is the fuel-exhaustion artifact of the
embedding; `bfs_terminates` shows the fuel used by `shortest_path` never
runs out, so every run of the source loop is represented. -/
def bfs (st : Store) (target : String) : Nat → List Node → List String → Option SearchResult
  | 0, _, _ => none
  | fuel + 1, frontier, explored =>
    match frontier with
    | [] => some .notConnected
    | node :: rest =>
      if node.state = target then
        some (.found (pathFrom node))
      else
        match neighbors_for_person st node.state with
        | none => some .keyError
        | some nbrs =>
            bfs st target fuel (addNeighbors rest (node.state :: explored) node nbrs)
              (node.state :: explored)

/-- `shortest_path` (`src/degrees.py` lines 106-147): start from the root
node for `source` with an empty explored set.  The fuel `|people| + 1`
covers every possible run of the loop (`bfs_terminates`). -/
def shortest_path (st : Store) (source target : String) : Option SearchResult :=
  bfs st target (st.people.length + 1) [Node.root source] []

/-- One row of `people.csv` as consumed by `load_data`. -/
structure PersonRow where
  id : String
  name : String
  birth : String
deriving DecidableEq, Repr

/-- One row of `movies.csv` as consumed by `load_data`. -/
structure MovieRow where
  id : String
  title : String
  year : String
deriving DecidableEq, Repr

/-- One row of `stars.csv` as consumed by `load_data`. -/
structure StarRow where
  person_id : String
  movie_id : String
deriving DecidableEq, Repr

/-- People-loading loop body (`src/degrees.py` lines 28-33): assign a fresh
record with an empty movie set. -/
def loadPerson (tbl : List (String × Person)) (r : PersonRow) : List (String × Person) :=
  dictSet tbl r.id { name := r.name, birth := r.birth, movies := [] }

/-- Movie-loading loop body (`src/degrees.py` lines 44-49). -/
def loadMovie (tbl : List (String × Movie)) (r : MovieRow) : List (String × Movie) :=
  dictSet tbl r.id { title := r.title, year := r.year, stars := [] }

/-- Star-loading loop body (`src/degrees.py` lines 56-62), transcribing the
`try`/`except KeyError` block statement by statement: line 58 first looks up
the person (raising — i.e. skipping the row — if absent) and then mutates
the person's movie set; line 59 looks up the movie and mutates its star set.
If the person exists but the movie does not, line 58 has already mutated the
people table when line 59 raises, so only the movie-side update is skipped. -/
def addStar (st : Store) (r : StarRow) : Store :=
  match dictGet st.people r.person_id with
  | none => st
  | some p =>
    let p1 : Person := { p with movies := setAdd p.movies r.movie_id }
    let st1 : Store := { st with people := dictSet st.people r.person_id p1 }
    match dictGet st1.movies r.movie_id with
    | none => st1
    | some mv =>
      let mv1 : Movie := { mv with stars := setAdd mv.stars r.person_id }
      { st1 with movies := dictSet st1.movies r.movie_id mv1 }

/-- `load_data` (`src/degrees.py` lines 19-64) on already-parsed CSV rows:
people, then movies, then stars. -/
def load_data (prows : List PersonRow) (mrows : List MovieRow) (srows : List StarRow) : Store :=
  srows.foldl addStar
    { people := prows.foldl loadPerson [],
      movies := mrows.foldl loadMovie [] }

/-- Every movie id in any person's movie set is a key of the movies table
(the forward half of the spec §4.1 post-load contract). -/
def moviesClosed (st : Store) : Bool :=
  st.people.all fun pe => pe.2.movies.all fun m => (dictGet st.movies m).isSome

/-- Every person id in any movie's star set is a key of the people table
(the backward half of the spec §4.1 post-load contract). -/
def starsClosed (st : Store) : Bool :=
  st.movies.all fun me => me.2.stars.all fun q => (dictGet st.people q).isSome

/-- Wherever a person's movie set references a movie that is a key of the
movies table, that movie's star set contains the person back. -/
def starsSym (st : Store) : Bool :=
  st.people.all fun pe => pe.2.movies.all fun m =>
    match dictGet st.movies m with
    | none => true
    | some mv => decide (pe.1 ∈ mv.stars)

/-- The `(movie, person)` pairs `neighbors_for_person` yields, with a raised
`KeyError` flattened to no pairs (used only to define the graph the search
walks; the search itself distinguishes the error). -/
def neighborPairs (st : Store) (u : String) : List (String × String) :=
  (neighbors_for_person st u).getD []

/-- States one hop from `u` in the projected person-person graph. -/
def neighborStates (st : Store) (u : String) : List String :=
  (neighborPairs st u).map Prod.snd

/-- Adjacency of the projected person-person graph that `shortest_path`
searches. -/
def adj (st : Store) (u v : String) : Prop :=
  v ∈ neighborStates st u

instance (st : Store) (u v : String) : Decidable (adj st u v) := by
  unfold adj; infer_instance

/-- `ReachesIn st u v n`: there is a walk of exactly `n` hops from `u` to
`v` in the projected graph.  The graph distance from `u` to `v` is the least
such `n`. -/
inductive ReachesIn (st : Store) : String → String → Nat → Prop where
  | refl (u : String) : ReachesIn st u u 0
  | step {u v w : String} {n : Nat} :
      adj st u v → ReachesIn st v w n → ReachesIn st u w (n + 1)

/-- `IsWalk st u l w`: the `(movie, person)` pair list `l` is a hop-by-hop
valid walk from `u` to `w`: each pair is produced by `neighbors_for_person`
applied to the previous person. -/
inductive IsWalk (st : Store) : String → List (String × String) → String → Prop where
  | nil (u : String) : IsWalk st u [] u
  | cons {u v w : String} {m : String} {rest : List (String × String)} :
      (m, v) ∈ neighborPairs st u → IsWalk st v rest w → IsWalk st u ((m, v) :: rest) w

/-- A search node as actually constructed by `shortest_path` starting from
`source`: the root carries `source`, and every child edge is a neighbor pair
of its parent's state. -/
inductive ValidNode (st : Store) (source : String) : Node → Prop where
  | root : ValidNode st source (Node.root source)
  | child {s a : String} {p : Node} :
      ValidNode st source p → (a, s) ∈ neighborPairs st p.state →
      ValidNode st source (Node.child s a p)

/-- `ChainOk st prev l`: walking `l` from `prev`, every pair `(m, q)` names
a movie of the table whose star set contains both `q` and the preceding
person. -/
def ChainOk (st : Store) : String → List (String × String) → Prop
  | _, [] => True
  | prev, (m, q) :: rest =>
      (∃ mv, dictGet st.movies m = some mv ∧ q ∈ mv.stars ∧ prev ∈ mv.stars) ∧
      ChainOk st q rest

/-- The frontier always holds nodes of at most two consecutive depths, the
shallower ones first — the structural consequence of FIFO order. -/
def TwoLevel (F : List Node) : Prop :=
  ∃ D F1 F2, F = F1 ++ F2 ∧ (∀ n ∈ F1, n.depth = D) ∧ (∀ n ∈ F2, n.depth = D + 1)

/-- Invariant tying a reachable state `(frontier, explored)` of the
`shortest_path` loop to the graph it searches.  `key` is the breadth-first
optimality invariant: any state reachable within the frontier's minimum
depth is already explored or sits in the frontier at no greater depth. -/
structure BfsInv (st : Store) (source target : String) (F : List Node) (E : List String) : Prop where
  valid : ∀ n ∈ F, ValidNode st source n
  twoLevel : TwoLevel F
  key : ∀ v d, ReachesIn st source v d → (∀ n ∈ F, d ≤ n.depth) →
        v ∈ E ∨ ∃ n ∈ F, n.state = v ∧ n.depth ≤ d
  closure : ∀ u ∈ E, ∀ v, adj st u v → v ∈ E ∨ v ∈ F.map Node.state
  src : source ∈ E ∨ source ∈ F.map Node.state
  noTarget : target ∉ E
  nodupF : (F.map Node.state).Nodup
  freshF : ∀ s ∈ F.map Node.state, s ∉ E

/-- The keys of the people table. -/
def peopleKeys (st : Store) : List String := st.people.map Prod.fst

/-- One non-terminal iteration of the `shortest_path` loop, as a relation
between `(frontier, explored)` states: dequeue the head node, find it is
not the target, expand it successfully, and enqueue the unseen neighbors
after adding the dequeued state to the explored set. -/
def BfsStepRel (st : Store) (target : String) (F : List Node) (E : List String)
    (F2 : List Node) (E2 : List String) : Prop :=
  ∃ n rest nbrs, F = n :: rest ∧ n.state ≠ target ∧
    neighbors_for_person st n.state = some nbrs ∧
    F2 = addNeighbors rest (n.state :: E) n nbrs ∧ E2 = n.state :: E

/-- The `(frontier, explored)` states a run of `shortest_path source target`
can pass through: the initial state, closed under loop iterations. -/
inductive BfsReach (st : Store) (source target : String) : List Node → List String → Prop where
  | init : BfsReach st source target [Node.root source] []
  | step {F E F2 E2} : BfsReach st source target F E → BfsStepRel st target F E F2 E2 →
      BfsReach st source target F2 E2

/-- Concrete fixture (spec §8): people 1,2,3 with movies 10 = {1,2} and
20 = {2,3}, as `load_data` builds it. -/
def fixture : Store :=
  { people := [("1", ⟨"A", "1970", ["10"]⟩), ("2", ⟨"B", "1971", ["10", "20"]⟩),
               ("3", ⟨"C", "1972", ["20"]⟩)],
    movies := [("10", ⟨"X", "1999", ["1", "2"]⟩), ("20", ⟨"Y", "2000", ["2", "3"]⟩)] }

/-- The same fixture as raw CSV rows. -/
def fixturePRows : List PersonRow := [⟨"1", "A", "1970"⟩, ⟨"2", "B", "1971"⟩, ⟨"3", "C", "1972"⟩]

def fixtureMRows : List MovieRow := [⟨"10", "X", "1999"⟩, ⟨"20", "Y", "2000"⟩]

def fixtureSRows : List StarRow := [⟨"1", "10"⟩, ⟨"2", "10"⟩, ⟨"2", "20"⟩, ⟨"3", "20"⟩]

/-- A dataset whose stars file holds one dangling movie reference
`("2", "bad")` besides the valid rows putting 1, 2, 3 into movie 5. -/
def danglingStore : Store :=
  load_data [⟨"1", "A", "1970"⟩, ⟨"2", "B", "1971"⟩, ⟨"3", "C", "1972"⟩]
    [⟨"5", "M", "1999"⟩]
    [⟨"1", "5"⟩, ⟨"2", "5"⟩, ⟨"3", "5"⟩, ⟨"2", "bad"⟩]

/-- Loaded dataset whose only stars row references movie "9", which is not
in the (empty) movies table, while person "1" exists. -/
def c2Store : Store := load_data [⟨"1", "A", "1970"⟩, ⟨"2", "B", "1971"⟩] [] [⟨"1", "9"⟩]

/-- One-person variant of the same dangling-movie dataset. -/
def c3Store : Store := load_data [⟨"1", "A", "1970"⟩] [] [⟨"1", "9"⟩]

/-- A well-formed store with two people sharing no movie. -/
def discStore : Store :=
  { people := [("1", ⟨"A", "1970", ["10"]⟩), ("2", ⟨"B", "1971", []⟩)],
    movies := [("10", ⟨"X", "1999", ["1"]⟩)] }

/-! ## Dictionary and set lemmas -/

theorem dictGet_mem {α : Type} {d : List (String × α)} {k : String} {v : α}
    (h : dictGet d k = some v) : (k, v) ∈ d := by
  induction d with
  | nil => simp [dictGet] at h
  | cons e rest ih =>
    obtain ⟨k0, v0⟩ := e
    by_cases hk : k0 = k
    · subst hk
      simp [dictGet] at h
      subst h
      exact List.mem_cons_self _ _
    · simp [dictGet, hk] at h
      exact List.mem_cons_of_mem _ (ih h)

theorem dictGet_isSome_iff {α : Type} {d : List (String × α)} {k : String} :
    (dictGet d k).isSome = true ↔ k ∈ d.map Prod.fst := by
  induction d with
  | nil => simp [dictGet]
  | cons e rest ih =>
    obtain ⟨k0, v0⟩ := e
    by_cases hk : k0 = k
    · subst hk; simp [dictGet]
    · simp [dictGet, hk, ih, Ne.symm hk]

theorem dictGet_dictSet_eq {α : Type} {d : List (String × α)} {k : String} {v : α} :
    dictGet (dictSet d k v) k = some v := by
  induction d with
  | nil => simp [dictGet, dictSet]
  | cons e rest ih =>
    obtain ⟨k0, v0⟩ := e
    by_cases hk : k0 = k
    · subst hk; simp [dictGet, dictSet]
    · simp [dictGet, dictSet, hk, ih]

theorem dictGet_dictSet_ne {α : Type} {d : List (String × α)} {k k' : String} {v : α}
    (h : k' ≠ k) : dictGet (dictSet d k v) k' = dictGet d k' := by
  induction d with
  | nil => simp [dictGet, dictSet, Ne.symm h]
  | cons e rest ih =>
    obtain ⟨k0, v0⟩ := e
    by_cases hk : k0 = k
    · subst hk
      simp only [dictSet, if_pos rfl]
      simp [dictGet, Ne.symm h]
    · simp only [dictSet, if_neg hk]
      by_cases hk' : k0 = k'
      · subst hk'; simp [dictGet]
      · simp [dictGet, hk', ih]

theorem dictSet_mem {α : Type} {d : List (String × α)} {k : String} {v : α} {e : String × α}
    (h : e ∈ dictSet d k v) : e = (k, v) ∨ e ∈ d := by
  induction d with
  | nil => simp [dictSet] at h; simp [h]
  | cons e0 rest ih =>
    obtain ⟨k0, v0⟩ := e0
    by_cases hk : k0 = k
    · subst hk
      simp only [dictSet, if_pos rfl] at h
      rcases List.mem_cons.mp h with h | h
      · exact Or.inl h
      · exact Or.inr (List.mem_cons_of_mem _ h)
    · simp only [dictSet, if_neg hk] at h
      rcases List.mem_cons.mp h with h | h
      · exact Or.inr (by simp [h])
      · rcases ih h with h | h
        · exact Or.inl h
        · exact Or.inr (List.mem_cons_of_mem _ h)

theorem setAdd_self_mem {s : List String} {x : String} : x ∈ setAdd s x := by
  unfold setAdd
  split
  · assumption
  · simp

theorem mem_setAdd_of_mem {s : List String} {x y : String} (h : y ∈ s) : y ∈ setAdd s x := by
  unfold setAdd
  split
  · exact h
  · simp [h]

/-! ## Characterization of `neighbors_for_person` -/

theorem neighborsFromMovies_isSome {st : Store} {ms : List String}
    (h : ∀ m ∈ ms, (dictGet st.movies m).isSome = true) :
    (neighborsFromMovies st ms).isSome = true := by
  induction ms with
  | nil => simp [neighborsFromMovies]
  | cons m rest ih =>
    have hm := h m (List.mem_cons_self _ _)
    obtain ⟨mv, hmv⟩ := Option.isSome_iff_exists.mp hm
    have hrest := ih (fun x hx => h x (List.mem_cons_of_mem _ hx))
    obtain ⟨l, hl⟩ := Option.isSome_iff_exists.mp hrest
    simp [neighborsFromMovies, hmv, hl]

theorem neighborsFromMovies_mem {st : Store} {ms : List String} {l : List (String × String)}
    (h : neighborsFromMovies st ms = some l) (m q : String) :
    (m, q) ∈ l ↔ m ∈ ms ∧ ∃ mv, dictGet st.movies m = some mv ∧ q ∈ mv.stars := by
  induction ms generalizing l with
  | nil =>
    simp [neighborsFromMovies] at h
    subst h
    simp
  | cons m0 rest ih =>
    simp only [neighborsFromMovies] at h
    rcases hm0 : dictGet st.movies m0 with _ | mv0
    · rw [hm0] at h; exact absurd h (by simp)
    rw [hm0] at h
    rcases hr : neighborsFromMovies st rest with _ | lr
    · rw [hr] at h; exact absurd h (by simp)
    rw [hr] at h
    simp only [Option.some.injEq] at h
    subst h
    constructor
    · intro hmem
      rcases List.mem_append.mp hmem with hmem | hmem
      · obtain ⟨q0, hq0, heq⟩ := List.mem_map.mp hmem
        obtain ⟨hm, hq⟩ := Prod.mk.injEq m0 q0 m q ▸ heq
        subst hm; subst hq
        exact ⟨List.mem_cons_self _ _, mv0, hm0, hq0⟩
      · obtain ⟨hms, hmv⟩ := (ih hr).mp hmem
        exact ⟨List.mem_cons_of_mem _ hms, hmv⟩
    · rintro ⟨hms, mv, hmv, hq⟩
      rcases List.mem_cons.mp hms with hms | hms
      · subst hms
        rw [hm0] at hmv
        obtain rfl : mv0 = mv := by injection hmv
        exact List.mem_append.mpr (Or.inl (List.mem_map.mpr ⟨q, hq, rfl⟩))
      · exact List.mem_append.mpr (Or.inr ((ih hr).mpr ⟨hms, mv, hmv, hq⟩))

theorem neighbors_some_person {st : Store} {u : String} {l : List (String × String)}
    (h : neighbors_for_person st u = some l) :
    ∃ p, dictGet st.people u = some p ∧ neighborsFromMovies st p.movies = some l := by
  unfold neighbors_for_person at h
  rcases hp : dictGet st.people u with _ | p
  · rw [hp] at h; exact absurd h (by simp)
  · rw [hp] at h; exact ⟨p, rfl, h⟩

theorem neighbors_isSome_of_person {st : Store} {u : String} {p : Person}
    (hp : dictGet st.people u = some p)
    (hms : ∀ m ∈ p.movies, (dictGet st.movies m).isSome = true) :
    (neighbors_for_person st u).isSome = true := by
  unfold neighbors_for_person
  rw [hp]
  exact neighborsFromMovies_isSome hms

theorem neighborPairs_eq_of_some {st : Store} {u : String} {l : List (String × String)}
    (h : neighbors_for_person st u = some l) : neighborPairs st u = l := by
  unfold neighborPairs
  rw [h]
  rfl

theorem neighborPairs_mem {st : Store} {u m q : String}
    (h : (m, q) ∈ neighborPairs st u) :
    ∃ p, dictGet st.people u = some p ∧ m ∈ p.movies ∧
      ∃ mv, dictGet st.movies m = some mv ∧ q ∈ mv.stars := by
  unfold neighborPairs at h
  rcases hn : neighbors_for_person st u with _ | l
  · rw [hn] at h; simp at h
  · rw [hn] at h
    obtain ⟨p, hp, hfm⟩ := neighbors_some_person hn
    obtain ⟨hms, hmv⟩ := (neighborsFromMovies_mem hfm m q).mp h
    exact ⟨p, hp, hms, hmv⟩

theorem adj_iff {st : Store} {u v : String} :
    adj st u v ↔ ∃ m, (m, v) ∈ neighborPairs st u := by
  unfold adj neighborStates
  constructor
  · intro h
    obtain ⟨⟨m, q⟩, hmem, hsnd⟩ := List.mem_map.mp h
    refine ⟨m, ?_⟩
    rw [show v = q from hsnd.symm]
    exact hmem
  · rintro ⟨m, hm⟩
    exact List.mem_map.mpr ⟨(m, v), hm, rfl⟩

theorem contains_iff {f : List Node} {s : String} :
    containsState f s = true ↔ s ∈ f.map Node.state := by
  unfold containsState
  rw [List.any_eq_true]
  constructor
  · rintro ⟨n, hn, hb⟩
    exact List.mem_map.mpr ⟨n, hn, beq_iff_eq.mp hb⟩
  · intro h
    obtain ⟨n, hn, hst⟩ := List.mem_map.mp h
    exact ⟨n, hn, beq_iff_eq.mpr hst⟩

/-! ## Store well-formedness extraction lemmas -/

theorem moviesClosed_spec {st : Store} (h : moviesClosed st = true) {u : String} {p : Person}
    (hp : dictGet st.people u = some p) :
    ∀ m ∈ p.movies, (dictGet st.movies m).isSome = true := by
  unfold moviesClosed at h
  rw [List.all_eq_true] at h
  have := h (u, p) (dictGet_mem hp)
  rw [List.all_eq_true] at this
  exact this

theorem starsClosed_spec {st : Store} (h : starsClosed st = true) {m : String} {mv : Movie}
    (hm : dictGet st.movies m = some mv) :
    ∀ q ∈ mv.stars, (dictGet st.people q).isSome = true := by
  unfold starsClosed at h
  rw [List.all_eq_true] at h
  have := h (m, mv) (dictGet_mem hm)
  rw [List.all_eq_true] at this
  exact this

theorem starsSym_iff {st : Store} :
    starsSym st = true ↔
      ∀ pe ∈ st.people, ∀ m ∈ pe.2.movies, ∀ mv,
        dictGet st.movies m = some mv → pe.1 ∈ mv.stars := by
  unfold starsSym
  rw [List.all_eq_true]
  constructor
  · intro h pe hpe m hm mv hmv
    have := h pe hpe
    rw [List.all_eq_true] at this
    have := this m hm
    rw [hmv] at this
    exact of_decide_eq_true this
  · intro h pe hpe
    rw [List.all_eq_true]
    intro m hm
    rcases hmv : dictGet st.movies m with _ | mv
    · rfl
    · exact decide_eq_true (h pe hpe m hm mv hmv)

/-! ## Search nodes, walks and reachability -/

theorem pathFrom_length (n : Node) : (pathFrom n).length = n.depth := by
  induction n with
  | root s => rfl
  | child s a p ih => simp [pathFrom, Node.depth, ih]

theorem IsWalk.append_one {st : Store} {u v s m : String} {l : List (String × String)}
    (h : IsWalk st u l v) (hp : (m, s) ∈ neighborPairs st v) :
    IsWalk st u (l ++ [(m, s)]) s := by
  induction h with
  | nil u => exact IsWalk.cons hp (IsWalk.nil s)
  | cons hpair _ ih => exact IsWalk.cons hpair (ih hp)

theorem pathFrom_isWalk {st : Store} {source : String} {n : Node}
    (h : ValidNode st source n) : IsWalk st source (pathFrom n) n.state := by
  induction h with
  | root => exact IsWalk.nil source
  | child hvp hpair ih => exact ih.append_one hpair

theorem walk_reaches {st : Store} {u w : String} {l : List (String × String)}
    (h : IsWalk st u l w) : ReachesIn st u w l.length := by
  induction h with
  | nil u => exact ReachesIn.refl u
  | cons hpair _ ih =>
    exact ReachesIn.step (adj_iff.mpr ⟨_, hpair⟩) ih

theorem reaches_zero {st : Store} {u v : String} (h : ReachesIn st u v 0) : u = v := by
  cases h
  rfl

theorem reaches_decomp_last {st : Store} {u w : String} :
    ∀ {n : Nat}, ReachesIn st u w (n + 1) → ∃ x, ReachesIn st u x n ∧ adj st x w := by
  intro n
  induction n generalizing u with
  | zero =>
    intro h
    cases h with
    | step hadj htail =>
      obtain rfl := reaches_zero htail
      exact ⟨u, ReachesIn.refl u, hadj⟩
  | succ k ih =>
    intro h
    cases h with
    | step hadj htail =>
      obtain ⟨x, hx, hxw⟩ := ih htail
      exact ⟨x, ReachesIn.step hadj hx, hxw⟩

theorem walk_last {st : Store} {u w : String} {l : List (String × String)}
    (h : IsWalk st u l w) (hne : l ≠ []) : ∃ l2 m, l = l2 ++ [(m, w)] := by
  induction h with
  | nil u => exact absurd rfl hne
  | cons hpair htail ih =>
    rename_i u' v' w' m' rest'
    by_cases hr : rest' = []
    · subst hr
      cases htail
      exact ⟨[], m', rfl⟩
    · obtain ⟨l2, m2, hl2⟩ := ih hr
      exact ⟨(m', v') :: l2, m2, by rw [hl2]; rfl⟩

theorem validState {st : Store} {source : String} {n : Node}
    (h : ValidNode st source n) :
    n.state = source ∨
      ∃ mId mv, dictGet st.movies mId = some mv ∧ n.state ∈ mv.stars := by
  cases h with
  | root => exact Or.inl rfl
  | child hvp hpair =>
    obtain ⟨p, _, _, mv, hmv, hq⟩ := neighborPairs_mem hpair
    exact Or.inr ⟨_, mv, hmv, hq⟩

theorem ChainOk_of_walk {st : Store} (hsym : starsSym st = true) {u w : String}
    {l : List (String × String)} (h : IsWalk st u l w) : ChainOk st u l := by
  induction h with
  | nil u => trivial
  | cons hpair _ ih =>
    obtain ⟨p, hp, hms, mv, hmv, hq⟩ := neighborPairs_mem hpair
    refine ⟨⟨mv, hmv, hq, ?_⟩, ih⟩
    exact (starsSym_iff.mp hsym) _ (dictGet_mem hp) _ hms mv hmv

/-! ## Lemmas about the neighbor-expansion loop -/

theorem addNeighbors_decomp (E : List String) (p : Node) :
    ∀ (nbrs : List (String × String)) (f : List Node),
      ∃ g, addNeighbors f E p nbrs = f ++ g ∧
        ∀ n ∈ g, (∃ m s, n = Node.child s m p ∧ (m, s) ∈ nbrs) ∧ n.state ∉ E := by
  intro nbrs
  induction nbrs with
  | nil => intro f; exact ⟨[], by simp [addNeighbors], by simp⟩
  | cons pair rest ih =>
    intro f
    obtain ⟨m0, s0⟩ := pair
    by_cases hc : containsState f s0 = false ∧ s0 ∉ E
    · obtain ⟨g, hg, hgmem⟩ := ih (f ++ [Node.child s0 m0 p])
      refine ⟨Node.child s0 m0 p :: g, ?_, ?_⟩
      · simp only [addNeighbors, if_pos hc]
        rw [hg, List.append_assoc]
        rfl
      · intro n hn
        rcases List.mem_cons.mp hn with hn | hn
        · subst hn
          exact ⟨⟨m0, s0, rfl, List.mem_cons_self _ _⟩, hc.2⟩
        · obtain ⟨⟨m, s, hns, hmem⟩, hnE⟩ := hgmem n hn
          exact ⟨⟨m, s, hns, List.mem_cons_of_mem _ hmem⟩, hnE⟩
    · obtain ⟨g, hg, hgmem⟩ := ih f
      refine ⟨g, ?_, ?_⟩
      · simp only [addNeighbors, if_neg hc]
        exact hg
      · intro n hn
        obtain ⟨⟨m, s, hns, hmem⟩, hnE⟩ := hgmem n hn
        exact ⟨⟨m, s, hns, List.mem_cons_of_mem _ hmem⟩, hnE⟩

theorem addNeighbors_mono {E : List String} {p : Node} {nbrs : List (String × String)}
    {f : List Node} {s : String} (h : s ∈ f.map Node.state) :
    s ∈ (addNeighbors f E p nbrs).map Node.state := by
  obtain ⟨g, hg, _⟩ := addNeighbors_decomp E p nbrs f
  rw [hg, List.map_append]
  exact List.mem_append.mpr (Or.inl h)

theorem addNeighbors_nodup (E : List String) (p : Node) :
    ∀ (nbrs : List (String × String)) (f : List Node),
      (f.map Node.state).Nodup → ((addNeighbors f E p nbrs).map Node.state).Nodup := by
  intro nbrs
  induction nbrs with
  | nil => intro f h; simpa [addNeighbors] using h
  | cons pair rest ih =>
    intro f h
    obtain ⟨m0, s0⟩ := pair
    by_cases hc : containsState f s0 = false ∧ s0 ∉ E
    · simp only [addNeighbors, if_pos hc]
      apply ih
      rw [List.map_append]
      rw [List.nodup_append]
      refine ⟨h, List.nodup_singleton _, ?_⟩
      intro x hx hx'
      have hxs : x = s0 := by
        simpa [Node.state] using hx'
      subst hxs
      have : containsState f x = true := contains_iff.mpr hx
      rw [this] at hc
      exact absurd hc.1 (by simp)
    · simp only [addNeighbors, if_neg hc]
      exact ih f h

theorem addNeighbors_cover (E : List String) (p : Node) :
    ∀ (nbrs : List (String × String)) (f : List Node) (m v : String),
      (m, v) ∈ nbrs →
      v ∈ (addNeighbors f E p nbrs).map Node.state ∨ v ∈ E := by
  intro nbrs
  induction nbrs with
  | nil => intro f m v h; simp at h
  | cons pair rest ih =>
    intro f m v hmem
    obtain ⟨m0, s0⟩ := pair
    by_cases hc : containsState f s0 = false ∧ s0 ∉ E
    · simp only [addNeighbors, if_pos hc]
      rcases List.mem_cons.mp hmem with hmem | hmem
      · obtain ⟨hm, hv⟩ : m = m0 ∧ v = s0 := by simpa using hmem
        subst hv
        left
        apply addNeighbors_mono
        simp [Node.state]
      · exact ih _ m v hmem
    · simp only [addNeighbors, if_neg hc]
      rcases List.mem_cons.mp hmem with hmem | hmem
      · obtain ⟨hm, hv⟩ : m = m0 ∧ v = s0 := by simpa using hmem
        subst hv
        rw [not_and_or] at hc
        rcases hc with hc | hc
        · left
          apply addNeighbors_mono
          exact contains_iff.mp (by simpa using hc)
        · right
          simpa using hc
      · exact ih _ m v hmem

/-- One non-terminal iteration preserves frontier-state distinctness and
frontier/explored freshness. -/
theorem step_pres {n1 : Node} {rest : List Node} {E : List String}
    (nbrs : List (String × String))
    (hnd : ((n1 :: rest).map Node.state).Nodup)
    (hfr : ∀ s ∈ (n1 :: rest).map Node.state, s ∉ E) :
    ((addNeighbors rest (n1.state :: E) n1 nbrs).map Node.state).Nodup ∧
    ∀ s ∈ (addNeighbors rest (n1.state :: E) n1 nbrs).map Node.state,
      s ∉ n1.state :: E := by
  have hndr : (rest.map Node.state).Nodup := (List.nodup_cons.mp (by simpa using hnd)).2
  have hhead : n1.state ∉ rest.map Node.state := (List.nodup_cons.mp (by simpa using hnd)).1
  refine ⟨addNeighbors_nodup _ _ _ _ hndr, ?_⟩
  intro s hs
  obtain ⟨g, hg, hgmem⟩ := addNeighbors_decomp (n1.state :: E) n1 nbrs rest
  rw [hg, List.map_append] at hs
  rcases List.mem_append.mp hs with hs | hs
  · intro habs
    rcases List.mem_cons.mp habs with habs | habs
    · exact hhead (habs ▸ hs)
    · exact hfr s (by simp [hs]) habs
  · obtain ⟨n, hn, rfl⟩ := List.mem_map.mp hs
    exact (hgmem n hn).2

/-! ## The BFS loop invariant -/

theorem TwoLevel.head_min {n1 : Node} {rest : List Node} (h : TwoLevel (n1 :: rest)) :
    ∀ n ∈ n1 :: rest, n1.depth ≤ n.depth := by
  obtain ⟨D, F1, F2, happ, h1, h2⟩ := h
  cases F1 with
  | nil =>
    simp only [List.nil_append] at happ
    intro n hn
    have hd1 : n1.depth = D + 1 := h2 n1 (happ ▸ List.mem_cons_self _ _)
    have hdn : n.depth = D + 1 := h2 n (happ ▸ hn)
    omega
  | cons a F1t =>
    rw [List.cons_append] at happ
    obtain ⟨rfl, hrest⟩ : n1 = a ∧ rest = F1t ++ F2 := by
      constructor
      · exact (List.cons.injEq _ _ _ _ ▸ happ).1
      · exact (List.cons.injEq _ _ _ _ ▸ happ).2
    have hd1 : n1.depth = D := h1 n1 (List.mem_cons_self _ _)
    intro n hn
    rcases List.mem_cons.mp hn with rfl | hn
    · exact le_refl _
    · rw [hrest] at hn
      rcases List.mem_append.mp hn with hn | hn
      · rw [hd1, h1 n (List.mem_cons_of_mem _ hn)]
      · rw [hd1, h2 n hn]; omega

theorem TwoLevel.head_bound {n1 : Node} {rest : List Node} (h : TwoLevel (n1 :: rest)) :
    ∀ n ∈ n1 :: rest, n.depth ≤ n1.depth + 1 := by
  obtain ⟨D, F1, F2, happ, h1, h2⟩ := h
  cases F1 with
  | nil =>
    simp only [List.nil_append] at happ
    intro n hn
    have hd1 : n1.depth = D + 1 := h2 n1 (happ ▸ List.mem_cons_self _ _)
    have hdn : n.depth = D + 1 := h2 n (happ ▸ hn)
    omega
  | cons a F1t =>
    rw [List.cons_append] at happ
    obtain ⟨rfl, hrest⟩ : n1 = a ∧ rest = F1t ++ F2 := by
      constructor
      · exact (List.cons.injEq _ _ _ _ ▸ happ).1
      · exact (List.cons.injEq _ _ _ _ ▸ happ).2
    have hd1 : n1.depth = D := h1 n1 (List.mem_cons_self _ _)
    intro n hn
    rcases List.mem_cons.mp hn with rfl | hn
    · omega
    · rw [hrest] at hn
      rcases List.mem_append.mp hn with hn | hn
      · rw [hd1, h1 n (List.mem_cons_of_mem _ hn)]; omega
      · rw [hd1, h2 n hn]

theorem TwoLevel.tail_step {n1 : Node} {rest g : List Node} (h : TwoLevel (n1 :: rest))
    (hg : ∀ n ∈ g, n.depth = n1.depth + 1) : TwoLevel (rest ++ g) := by
  obtain ⟨D, F1, F2, happ, h1, h2⟩ := h
  cases F1 with
  | nil =>
    simp only [List.nil_append] at happ
    have hd1 : n1.depth = D + 1 := h2 n1 (happ ▸ List.mem_cons_self _ _)
    have hrest : ∀ n ∈ rest, n.depth = D + 1 := fun n hn =>
      h2 n (happ ▸ List.mem_cons_of_mem _ hn)
    exact ⟨D + 1, rest, g, rfl, hrest, fun n hn => by rw [hg n hn, hd1]⟩
  | cons a F1t =>
    rw [List.cons_append] at happ
    obtain ⟨rfl, hrest⟩ : n1 = a ∧ rest = F1t ++ F2 := by
      constructor
      · exact (List.cons.injEq _ _ _ _ ▸ happ).1
      · exact (List.cons.injEq _ _ _ _ ▸ happ).2
    have hd1 : n1.depth = D := h1 n1 (List.mem_cons_self _ _)
    refine ⟨D, F1t, F2 ++ g, by rw [hrest, List.append_assoc], fun n hn => h1 n (List.mem_cons_of_mem _ hn), ?_⟩
    intro n hn
    rcases List.mem_append.mp hn with hn | hn
    · exact h2 n hn
    · rw [hg n hn, hd1]

theorem BfsInv_init (st : Store) (source target : String) :
    BfsInv st source target [Node.root source] [] := by
  refine ⟨?_, ?_, ?_, ?_, ?_, ?_, ?_, ?_⟩
  · intro n hn
    obtain rfl : n = Node.root source := by simpa using hn
    exact ValidNode.root
  · refine ⟨0, [Node.root source], [], rfl, ?_, ?_⟩
    · intro n hn
      obtain rfl : n = Node.root source := by simpa using hn
      rfl
    · intro n hn
      simp at hn
  · intro v d hreach hall
    have hd0 : d ≤ 0 := by
      simpa [Node.depth] using hall (Node.root source) (List.mem_cons_self _ _)
    obtain rfl : d = 0 := Nat.le_zero.mp hd0
    obtain rfl : source = v := reaches_zero hreach
    exact Or.inr ⟨Node.root source, List.mem_cons_self _ _, rfl, Nat.le_refl _⟩
  · intro u hu
    simp at hu
  · right
    simp [Node.state]
  · simp
  · simp
  · simp

/-- If the explored set contains `source` and is closed under adjacency,
it contains everything reachable from `source`. -/
theorem closed_reach {st : Store} {E : List String} {source : String}
    (hsrc : source ∈ E) (hcl : ∀ u ∈ E, ∀ v, adj st u v → v ∈ E) :
    ∀ {v : String} {d : Nat}, ReachesIn st source v d → v ∈ E := by
  suffices h : ∀ {u v : String} {d : Nat}, ReachesIn st u v d → u ∈ E → v ∈ E by
    intro v d hr
    exact h hr hsrc
  intro u v d hr
  induction hr with
  | refl u => exact id
  | step hadj htail ih => exact fun hu => ih (hcl _ hu _ hadj)

/-- Preservation of the loop invariant across one non-terminal iteration of
the `shortest_path` loop. -/
theorem BfsInv_step {st : Store} {source target : String} {n1 : Node} {rest : List Node}
    {E : List String} {nbrs : List (String × String)}
    (hinv : BfsInv st source target (n1 :: rest) E)
    (hne : n1.state ≠ target)
    (hnb : neighbors_for_person st n1.state = some nbrs) :
    BfsInv st source target (addNeighbors rest (n1.state :: E) n1 nbrs) (n1.state :: E) := by
  obtain ⟨g, hF', hgmem⟩ := addNeighbors_decomp (n1.state :: E) n1 nbrs rest
  have hpairs : neighborPairs st n1.state = nbrs := neighborPairs_eq_of_some hnb
  have hgdepth : ∀ n ∈ g, n.depth = n1.depth + 1 := by
    intro n hn
    obtain ⟨⟨m, s, rfl, _⟩, _⟩ := hgmem n hn
    rfl
  have hb' : ∀ n ∈ addNeighbors rest (n1.state :: E) n1 nbrs, n.depth ≤ n1.depth + 1 := by
    intro n hn
    rw [hF'] at hn
    rcases List.mem_append.mp hn with hn | hn
    · exact hinv.twoLevel.head_bound n (List.mem_cons_of_mem _ hn)
    · rw [hgdepth n hn]
  have hvalid' : ∀ n ∈ addNeighbors rest (n1.state :: E) n1 nbrs, ValidNode st source n := by
    intro n hn
    rw [hF'] at hn
    rcases List.mem_append.mp hn with hn | hn
    · exact hinv.valid n (List.mem_cons_of_mem _ hn)
    · obtain ⟨⟨m, s, rfl, hmem⟩, _⟩ := hgmem n hn
      exact ValidNode.child (hinv.valid n1 (List.mem_cons_self _ _)) (hpairs ▸ hmem)
  have hclosure' : ∀ u ∈ n1.state :: E, ∀ v, adj st u v →
      v ∈ n1.state :: E ∨ v ∈ (addNeighbors rest (n1.state :: E) n1 nbrs).map Node.state := by
    intro u hu v hadj
    rcases List.mem_cons.mp hu with hu1 | hu
    · have hadj1 : adj st n1.state v := by rw [← hu1]; exact hadj
      obtain ⟨m, hm⟩ := adj_iff.mp hadj1
      rcases addNeighbors_cover (n1.state :: E) n1 nbrs rest m v (hpairs ▸ hm) with h | h
      · exact Or.inr h
      · exact Or.inl h
    · rcases hinv.closure u hu v hadj with h | h
      · exact Or.inl (List.mem_cons_of_mem _ h)
      · rw [List.map_cons] at h
        rcases List.mem_cons.mp h with rfl | h
        · exact Or.inl (List.mem_cons_self _ _)
        · exact Or.inr (addNeighbors_mono h)
  have hsrc' : source ∈ n1.state :: E ∨
      source ∈ (addNeighbors rest (n1.state :: E) n1 nbrs).map Node.state := by
    rcases hinv.src with h | h
    · exact Or.inl (List.mem_cons_of_mem _ h)
    · rw [List.map_cons] at h
      rcases List.mem_cons.mp h with h | h
      · exact Or.inl (by rw [h]; exact List.mem_cons_self _ _)
      · exact Or.inr (addNeighbors_mono h)
  have hstep := step_pres nbrs hinv.nodupF hinv.freshF
  refine ⟨hvalid', by rw [hF']; exact hinv.twoLevel.tail_step hgdepth, ?_, hclosure', hsrc', ?_, hstep.1, hstep.2⟩
  · -- the key breadth-first invariant
    intro v d hreach hall
    by_cases hd : d ≤ n1.depth
    · have hall0 : ∀ n ∈ n1 :: rest, d ≤ n.depth := fun n hn =>
        le_trans hd (hinv.twoLevel.head_min n hn)
      rcases hinv.key v d hreach hall0 with hE | ⟨n, hn, hst, hdep⟩
      · exact Or.inl (List.mem_cons_of_mem _ hE)
      · rcases List.mem_cons.mp hn with hn1 | hn
        · refine Or.inl ?_
          rw [← hst, hn1]
          exact List.mem_cons_self _ _
        · exact Or.inr ⟨n, by rw [hF']; exact List.mem_append_left _ hn, hst, hdep⟩
    · push_neg at hd
      by_cases hFe : addNeighbors rest (n1.state :: E) n1 nbrs = []
      · left
        have hsrcE : source ∈ n1.state :: E := by
          rcases hsrc' with h | h
          · exact h
          · rw [hFe] at h; simp at h
        have hclE : ∀ u ∈ n1.state :: E, ∀ w, adj st u w → w ∈ n1.state :: E := by
          intro u hu w hadj
          rcases hclosure' u hu w hadj with h | h
          · exact h
          · rw [hFe] at h; simp at h
        exact closed_reach hsrcE hclE hreach
      · obtain ⟨n0, hn0⟩ := List.exists_mem_of_ne_nil _ hFe
        have hd2 : d = n1.depth + 1 := by
          have h1 := hall n0 hn0
          have h2 := hb' n0 hn0
          omega
        obtain ⟨u, hu, hadj⟩ := reaches_decomp_last (hd2 ▸ hreach)
        rcases hinv.key u n1.depth hu (hinv.twoLevel.head_min) with hE | ⟨n, hn, hst, hdep⟩
        · rcases hinv.closure u hE v hadj with hvE | hvF
          · exact Or.inl (List.mem_cons_of_mem _ hvE)
          · rw [List.map_cons] at hvF
            rcases List.mem_cons.mp hvF with rfl | hvF
            · exact Or.inl (List.mem_cons_self _ _)
            · obtain ⟨n', hn', rfl⟩ := List.mem_map.mp hvF
              refine Or.inr ⟨n', by rw [hF']; exact List.mem_append_left _ hn', rfl, ?_⟩
              rw [hd2]
              exact hinv.twoLevel.head_bound n' (List.mem_cons_of_mem _ hn')
        · rcases List.mem_cons.mp hn with hn1 | hnrest
          · have hstu : n1.state = u := by rw [← hn1]; exact hst
            have hadj1 : adj st n1.state v := by rw [hstu]; exact hadj
            obtain ⟨m, hm⟩ := adj_iff.mp hadj1
            rcases addNeighbors_cover (n1.state :: E) n1 nbrs rest m v (hpairs ▸ hm) with hvF | hvE
            · obtain ⟨n', hn', rfl⟩ := List.mem_map.mp hvF
              exact Or.inr ⟨n', hn', rfl, by rw [hd2]; exact hb' n' hn'⟩
            · exact Or.inl hvE
          · exfalso
            have h1 : d ≤ n.depth := hall n (by rw [hF']; exact List.mem_append_left _ hnrest)
            omega
  · intro habs
    rcases List.mem_cons.mp habs with habs | habs
    · exact hne habs.symm
    · exact hinv.noTarget habs

/-! ## Termination of the search loop -/

theorem nodup_subset_length {E L : List String} (hnd : E.Nodup) (hsub : ∀ s ∈ E, s ∈ L) :
    E.length ≤ L.toFinset.card := by
  have h1 : E.toFinset.card = E.length := List.toFinset_card_of_nodup hnd
  have h2 : E.toFinset ⊆ L.toFinset := by
    intro x hx
    rw [List.mem_toFinset] at hx ⊢
    exact hsub x hx
  calc E.length = E.toFinset.card := h1.symm
    _ ≤ L.toFinset.card := Finset.card_le_card h2

/-- Every non-terminal iteration of the loop moves a fresh people key into
the explored set, so `|people| + 1` units of fuel always complete the loop
— on any store and any source/target whatsoever. -/
theorem bfs_terminates (st : Store) (target : String) :
    ∀ (fuel : Nat) (F : List Node) (E : List String),
      (F.map Node.state).Nodup →
      (∀ s ∈ F.map Node.state, s ∉ E) →
      E.Nodup →
      (∀ s ∈ E, s ∈ peopleKeys st) →
      (peopleKeys st).toFinset.card - E.length < fuel →
      (bfs st target fuel F E).isSome = true := by
  intro fuel
  induction fuel with
  | zero =>
    intro F E _ _ _ _ hf
    omega
  | succ k ih =>
    intro F E hnd hfr hEnd hEsub hf
    match F with
    | [] => simp [bfs]
    | n1 :: rest =>
      by_cases ht : n1.state = target
      · simp [bfs, ht]
      · rcases hnb : neighbors_for_person st n1.state with _ | nbrs
        · simp [bfs, ht, hnb]
        · have hkey : n1.state ∈ peopleKeys st := by
            obtain ⟨p, hp, _⟩ := neighbors_some_person hnb
            exact dictGet_isSome_iff.mp (by rw [hp]; rfl)
          have hfresh : n1.state ∉ E :=
            hfr n1.state (List.mem_map.mpr ⟨n1, List.mem_cons_self _ _, rfl⟩)
          have hstep := step_pres nbrs hnd hfr
          have hEnd' : (n1.state :: E).Nodup := List.nodup_cons.mpr ⟨hfresh, hEnd⟩
          have hEsub' : ∀ s ∈ n1.state :: E, s ∈ peopleKeys st := by
            intro s hs
            rcases List.mem_cons.mp hs with rfl | hs
            · exact hkey
            · exact hEsub s hs
          have hlen : E.length + 1 ≤ (peopleKeys st).toFinset.card := by
            have := nodup_subset_length hEnd' hEsub'
            simpa using this
          have hred : bfs st target (k + 1) (n1 :: rest) E =
              bfs st target k (addNeighbors rest (n1.state :: E) n1 nbrs) (n1.state :: E) := by
            simp [bfs, ht, hnb]
          rw [hred]
          refine ih _ _ hstep.1 hstep.2 hEnd' hEsub' ?_
          simp only [List.length_cons]
          omega

/-- The loop of `shortest_path` always reaches `Found`, `Exhausted` or the
uncaught `KeyError` — it can never run forever. -/
theorem shortest_path_isSome (st : Store) (source target : String) :
    (shortest_path st source target).isSome = true := by
  unfold shortest_path
  apply bfs_terminates
  · simp
  · simp
  · exact List.nodup_nil
  · intro s hs
    simp at hs
  · have h1 : (peopleKeys st).toFinset.card ≤ (peopleKeys st).length := List.toFinset_card_le _
    have h2 : (peopleKeys st).length = st.people.length := List.length_map _ _
    omega

/-! ## Soundness of the results of the search loop -/

/-- Core soundness theorem, by induction along the loop: from any state
satisfying the invariant, a `found` result is the path of a valid search
node for the target of minimal depth, and a `notConnected` result means the
target is unreachable. -/
theorem bfs_sound_core {st : Store} {source target : String} :
    ∀ (fuel : Nat) (F : List Node) (E : List String) (r : SearchResult),
      BfsInv st source target F E →
      bfs st target fuel F E = some r →
      (∀ p, r = .found p →
        ∃ n, ValidNode st source n ∧ n.state = target ∧ p = pathFrom n ∧
          ∀ d, ReachesIn st source target d → n.depth ≤ d) ∧
      (r = .notConnected → ∀ d, ¬ ReachesIn st source target d) := by
  intro fuel
  induction fuel with
  | zero =>
    intro F E r _ h
    simp [bfs] at h
  | succ k ih =>
    intro F E r hinv h
    match F with
    | [] =>
      have hr : r = .notConnected := by
        have heq : bfs st target (k + 1) ([] : List Node) E = some .notConnected := by
          simp [bfs]
        rw [heq] at h
        exact (Option.some.injEq _ _ ▸ h).symm
      constructor
      · intro p hp
        rw [hr] at hp
        cases hp
      · intro _ d hreach
        rcases hinv.key target d hreach (by intro n hn; exact absurd hn (List.not_mem_nil n)) with hE | ⟨n, hn, _⟩
        · exact hinv.noTarget hE
        · exact absurd hn (List.not_mem_nil n)
    | n1 :: rest =>
      by_cases ht : n1.state = target
      · have hr : r = .found (pathFrom n1) := by
          have heq : bfs st target (k + 1) (n1 :: rest) E = some (.found (pathFrom n1)) := by
            simp [bfs, ht]
          rw [heq] at h
          exact (Option.some.injEq _ _ ▸ h).symm
        constructor
        · intro p hp
          have hpp : p = pathFrom n1 := by
            rw [hr] at hp
            cases hp
            rfl
          refine ⟨n1, hinv.valid n1 (List.mem_cons_self _ _), ht, hpp, ?_⟩
          intro d hreach
          by_contra hlt
          push_neg at hlt
          have hall : ∀ n ∈ n1 :: rest, d ≤ n.depth := fun n hn =>
            le_trans (Nat.le_of_lt hlt) (hinv.twoLevel.head_min n hn)
          rcases hinv.key target d hreach hall with hE | ⟨n, hn, hst, hdep⟩
          · exact hinv.noTarget hE
          · have := hinv.twoLevel.head_min n hn
            omega
        · intro hnc
          rw [hr] at hnc
          cases hnc
      · rcases hnb : neighbors_for_person st n1.state with _ | nbrs
        · have hr : r = .keyError := by
            have heq : bfs st target (k + 1) (n1 :: rest) E = some .keyError := by
              simp [bfs, ht, hnb]
            rw [heq] at h
            exact (Option.some.injEq _ _ ▸ h).symm
          constructor
          · intro p hp
            rw [hr] at hp
            cases hp
          · intro hnc
            rw [hr] at hnc
            cases hnc
        · have h' : bfs st target k (addNeighbors rest (n1.state :: E) n1 nbrs) (n1.state :: E) = some r := by
            have heq : bfs st target (k + 1) (n1 :: rest) E =
                bfs st target k (addNeighbors rest (n1.state :: E) n1 nbrs) (n1.state :: E) := by
              simp [bfs, ht, hnb]
            rw [heq] at h
            exact h
          exact ih _ _ r (BfsInv_step hinv ht hnb) h'

/-- On a store satisfying the post-load closure contract, expanding any
valid search node succeeds (no `KeyError`), provided the source id itself is
a people key. -/
theorem neighbors_total {st : Store} {source : String}
    (hmc : moviesClosed st = true) (hsc : starsClosed st = true)
    (hsrc : (dictGet st.people source).isSome = true) {n : Node}
    (hv : ValidNode st source n) : (neighbors_for_person st n.state).isSome = true := by
  have hkey : (dictGet st.people n.state).isSome = true := by
    rcases validState hv with h | ⟨mId, mv, hmv, hstar⟩
    · rw [h]
      exact hsrc
    · exact starsClosed_spec hsc hmv _ hstar
  obtain ⟨p, hp⟩ := Option.isSome_iff_exists.mp hkey
  exact neighbors_isSome_of_person hp (moviesClosed_spec hmc hp)

/-- On a store satisfying the post-load closure contract, the loop never
ends in a `KeyError` when the source is a people key. -/
theorem bfs_no_keyError {st : Store} {source target : String}
    (hmc : moviesClosed st = true) (hsc : starsClosed st = true)
    (hsrc : (dictGet st.people source).isSome = true) :
    ∀ (fuel : Nat) (F : List Node) (E : List String),
      (∀ n ∈ F, ValidNode st source n) →
      bfs st target fuel F E ≠ some .keyError := by
  intro fuel
  induction fuel with
  | zero =>
    intro F E _ h
    simp [bfs] at h
  | succ k ih =>
    intro F E hval h
    match F with
    | [] => simp [bfs] at h
    | n1 :: rest =>
      by_cases ht : n1.state = target
      · simp [bfs, ht] at h
      · rcases hnb : neighbors_for_person st n1.state with _ | nbrs
        · have := neighbors_total hmc hsc hsrc (hval n1 (List.mem_cons_self _ _))
          rw [hnb] at this
          cases this
        · have h' : bfs st target k (addNeighbors rest (n1.state :: E) n1 nbrs) (n1.state :: E) = some .keyError := by
            have heq : bfs st target (k + 1) (n1 :: rest) E =
                bfs st target k (addNeighbors rest (n1.state :: E) n1 nbrs) (n1.state :: E) := by
              simp [bfs, ht, hnb]
            rw [heq] at h
            exact h
          refine ih _ _ ?_ h'
          intro n hn
          obtain ⟨g, hF', hgmem⟩ := addNeighbors_decomp (n1.state :: E) n1 nbrs rest
          rw [hF'] at hn
          rcases List.mem_append.mp hn with hn | hn
          · exact hval n (List.mem_cons_of_mem _ hn)
          · obtain ⟨⟨m, s, rfl, hmem⟩, _⟩ := hgmem n hn
            exact ValidNode.child (hval n1 (List.mem_cons_self _ _))
              ((neighborPairs_eq_of_some hnb) ▸ hmem)

/-! ## Endpoint behaviour of `shortest_path` -/

/-- The goal test runs at dequeue time on the root itself, so a search for
`source == target` returns the empty path before touching the store. -/
theorem shortest_path_self (st : Store) (s : String) :
    shortest_path st s s = some (SearchResult.found []) := by
  unfold shortest_path
  simp [bfs, Node.state, pathFrom]

/-- If the source id is not a people key and differs from the target, the
first expansion raises `KeyError`. -/
theorem shortest_path_absent {st : Store} {source target : String}
    (h : dictGet st.people source = none) (hne : source ≠ target) :
    shortest_path st source target = some SearchResult.keyError := by
  unfold shortest_path
  simp [bfs, Node.state, hne, neighbors_for_person, h]

/-- A source absent from the people table has no outgoing edges, so it
reaches only itself. -/
theorem reach_absent {st : Store} {source target : String} {d : Nat}
    (h : dictGet st.people source = none) (hr : ReachesIn st source target d) :
    target = source := by
  cases hr with
  | refl => rfl
  | step hadj htail =>
    exfalso
    have hempty : neighborStates st source = [] := by
      simp [neighborStates, neighborPairs, neighbors_for_person, h]
    unfold adj at hadj
    rw [hempty] at hadj
    exact absurd hadj (List.not_mem_nil _)

/-- If every neighbor of `a` is `a` itself, nothing besides `a` is
reachable from `a`. -/
theorem reach_closed_singleton {st : Store} {a : String}
    (hn : ∀ x ∈ neighborStates st a, x = a) :
    ∀ {u v : String} {d : Nat}, ReachesIn st u v d → u = a → v = a := by
  intro u v d h
  induction h with
  | refl u => exact id
  | step hadj htail ih =>
    intro hua
    apply ih
    exact hn _ (by rw [← hua]; exact hadj)

/-- On a store satisfying the closure contract, with a source that is a
people key, a search ends either `Found` — with a valid minimal-depth node
for the target — or `Exhausted` with the target unreachable. -/
theorem shortest_path_cases {st : Store} {source target : String}
    (hmc : moviesClosed st = true) (hsc : starsClosed st = true)
    (hsrc : (dictGet st.people source).isSome = true) :
    (∃ p n, shortest_path st source target = some (SearchResult.found p) ∧
       ValidNode st source n ∧ n.state = target ∧ p = pathFrom n ∧
       ∀ d, ReachesIn st source target d → n.depth ≤ d) ∨
    (shortest_path st source target = some SearchResult.notConnected ∧
       ∀ d, ¬ ReachesIn st source target d) := by
  have hsome := shortest_path_isSome st source target
  obtain ⟨r, hr⟩ := Option.isSome_iff_exists.mp hsome
  have hr' : bfs st target (st.people.length + 1) [Node.root source] [] = some r := hr
  have hcore := bfs_sound_core (st.people.length + 1) [Node.root source] [] r
    (BfsInv_init st source target) hr'
  match r with
  | .found p =>
    obtain ⟨n, hval, hst, hp, hmin⟩ := hcore.1 p rfl
    exact Or.inl ⟨p, n, hr, hval, hst, hp, hmin⟩
  | .notConnected =>
    exact Or.inr ⟨hr, hcore.2 rfl⟩
  | .keyError =>
    exfalso
    refine bfs_no_keyError hmc hsc hsrc (st.people.length + 1) [Node.root source] [] ?_ hr'
    intro n hn
    obtain rfl : n = Node.root source := by simpa using hn
    exact ValidNode.root

/-! ## What `load_data` guarantees -/

theorem mem_setAdd {s : List String} {x y : String} (h : y ∈ setAdd s x) : y ∈ s ∨ y = x := by
  unfold setAdd at h
  split at h
  · exact Or.inl h
  · rcases List.mem_append.mp h with h | h
    · exact Or.inl h
    · exact Or.inr (by simpa using h)

theorem loadPeople_movies_nil :
    ∀ (prows : List PersonRow) (tbl : List (String × Person)),
      (∀ e ∈ tbl, e.2.movies = []) →
      ∀ e ∈ prows.foldl loadPerson tbl, e.2.movies = [] := by
  intro prows
  induction prows with
  | nil => intro tbl h e he; exact h e he
  | cons r rest ih =>
    intro tbl h e he
    refine ih (loadPerson tbl r) ?_ e he
    intro e' he'
    rcases dictSet_mem he' with rfl | he'
    · rfl
    · exact h e' he'

theorem starsSym_of_empty_movies {ppl : List (String × Person)} {mvs : List (String × Movie)}
    (h : ∀ e ∈ ppl, e.2.movies = []) :
    starsSym { people := ppl, movies := mvs } = true := by
  rw [starsSym_iff]
  intro pe hpe m hm mv _
  rw [h pe hpe] at hm
  exact absurd hm (List.not_mem_nil m)

/-- Processing one `stars.csv` row preserves `starsSym`: the person-side
update either references a movie key that simultaneously receives the
person (the `some` branch) or a non-key, which `starsSym` ignores. -/
theorem addStar_starsSym {st : Store} {r : StarRow} (h : starsSym st = true) :
    starsSym (addStar st r) = true := by
  unfold addStar
  rcases hp : dictGet st.people r.person_id with _ | p
  · exact h
  · dsimp only
    rcases hm : dictGet st.movies r.movie_id with _ | mv
    · -- movie absent: only the people table changed
      rw [starsSym_iff]
      intro pe hpe m hmem mv' hmv'
      dsimp only at hpe hmv' ⊢
      rcases dictSet_mem hpe with rfl | hpe
      · dsimp only at hmem
        rcases mem_setAdd hmem with hmem | rfl
        · exact starsSym_iff.mp h (r.person_id, p) (dictGet_mem hp) m hmem mv' hmv'
        · rw [hm] at hmv'
          cases hmv'
      · exact starsSym_iff.mp h pe hpe m hmem mv' hmv'
    · -- movie present: its star set also gains the person
      rw [starsSym_iff]
      intro pe hpe m hmem mv' hmv'
      dsimp only at hpe hmv' ⊢
      by_cases hmid : m = r.movie_id
      · subst hmid
        rw [dictGet_dictSet_eq] at hmv'
        obtain rfl : { mv with stars := setAdd mv.stars r.person_id } = mv' := by
          injection hmv'
        dsimp only
        rcases dictSet_mem hpe with rfl | hpe
        · exact setAdd_self_mem
        · exact mem_setAdd_of_mem
            (starsSym_iff.mp h pe hpe r.movie_id hmem mv hm)
      · rw [dictGet_dictSet_ne hmid] at hmv'
        rcases dictSet_mem hpe with rfl | hpe
        · dsimp only at hmem
          rcases mem_setAdd hmem with hmem | rfl
          · exact starsSym_iff.mp h (r.person_id, p) (dictGet_mem hp) m hmem mv' hmv'
          · exact absurd rfl hmid
        · exact starsSym_iff.mp h pe hpe m hmem mv' hmv'

theorem foldl_addStar_starsSym :
    ∀ (srows : List StarRow) (st : Store),
      starsSym st = true → starsSym (srows.foldl addStar st) = true := by
  intro srows
  induction srows with
  | nil => intro st h; exact h
  | cons r rest ih => intro st h; exact ih (addStar st r) (addStar_starsSym h)

/-- Every store produced by `load_data` satisfies `starsSym`: the only way
a movie id enters a person's movie set is a row whose movie-side update — if
the movie id is a key at all — puts the person into that movie's star set. -/
theorem load_data_starsSym (prows : List PersonRow) (mrows : List MovieRow)
    (srows : List StarRow) : starsSym (load_data prows mrows srows) = true := by
  unfold load_data
  apply foldl_addStar_starsSym
  exact starsSym_of_empty_movies (loadPeople_movies_nil prows [] (by intro e he; simp at he))

/-! ## Claim theorems -/

/-- C1 (counterexample): on the literally loaded store `danglingStore`,
person 3 is one hop from person 1 in the projected graph, yet
`shortest_path "1" "3"` never returns a path — it dies in the `KeyError`
raised while expanding person 2, whose movie set was left dangling by the
half-skipped stars row.  So the claim is false for loaded stores in
general. -/
theorem c1_counterexample :
    ReachesIn danglingStore "1" "3" 1 ∧
    ∀ p, shortest_path danglingStore "1" "3" ≠ some (SearchResult.found p) := by
  constructor
  · exact ReachesIn.step (by decide) (ReachesIn.refl "3")
  · intro p h
    have hk : shortest_path danglingStore "1" "3" = some SearchResult.keyError := by decide
    rw [hk] at h
    simp at h

/-- C1 (amended): on every store satisfying the post-load referential
closure contract (spec §4.1) — every movie id in a person's movie set is a
movies key and every person id in a movie's star set is a people key — and
for every pair with the target reachable from the source in the projected
person-person graph, `shortest_path` returns a sequence of
`(movie_id, person_id)` pairs whose length equals the true graph distance:
the length is itself realised by a walk, and no walk is shorter. -/
theorem c1_shortest_path_length_eq_distance (st : Store) (source target : String)
    (hmc : moviesClosed st = true) (hsc : starsClosed st = true)
    (hreach : ∃ d, ReachesIn st source target d) :
    ∃ p, shortest_path st source target = some (SearchResult.found p) ∧
      ReachesIn st source target p.length ∧
      ∀ d, ReachesIn st source target d → p.length ≤ d := by
  by_cases hsrc : (dictGet st.people source).isSome = true
  · rcases shortest_path_cases hmc hsc hsrc with ⟨p, n, hsp, hval, hst, hp, hmin⟩ | ⟨_, hnr⟩
    · refine ⟨p, hsp, ?_, ?_⟩
      · have hr := walk_reaches (pathFrom_isWalk hval)
        rw [hst] at hr
        rw [hp]
        exact hr
      · intro d hd
        have := hmin d hd
        rw [hp, pathFrom_length]
        exact this
    · obtain ⟨d, hd⟩ := hreach
      exact absurd hd (hnr d)
  · have hnone : dictGet st.people source = none := by
      rcases hdg : dictGet st.people source with _ | q
      · rfl
      · rw [hdg] at hsrc
        simp at hsrc
    obtain ⟨d, hd⟩ := hreach
    have heq : target = source := reach_absent hnone hd
    rw [heq]
    refine ⟨[], shortest_path_self st source, ReachesIn.refl source, ?_⟩
    intro d2 _
    exact Nat.zero_le d2

/-- C1 (witness): the fixture search from 1 to 3 returns a shortest path of
length 2. -/
theorem c1_witness :
    ∃ p, shortest_path fixture "1" "3" = some (SearchResult.found p) ∧
      ReachesIn fixture "1" "3" p.length ∧
      ∀ d, ReachesIn fixture "1" "3" d → p.length ≤ d :=
  c1_shortest_path_length_eq_distance fixture "1" "3" (by decide) (by decide)
    ⟨2, ReachesIn.step (show adj fixture "1" "2" by decide)
      (ReachesIn.step (show adj fixture "2" "3" by decide) (ReachesIn.refl "3"))⟩

/-- C2 (code evaluated at the failing input): after loading a dataset whose
stars file has one row with a known person ("1") but an unknown movie ("9")
— a row the loader logs and "skips" — `neighbors_for_person "1"` raises
`KeyError`, and so does `shortest_path "1" "2"`.  The claim that searches
over the remaining data complete without failing is right about the intent
(the loader catches `KeyError` precisely to keep going safely), but the code
mutates the person's movie set before the movie lookup raises, poisoning
later searches. -/
theorem c2_search_fails_after_dangling_row :
    neighbors_for_person c2Store "1" = none ∧
    shortest_path c2Store "1" "2" = some SearchResult.keyError := by
  constructor
  · rfl
  · rfl

/-- C3 (code evaluated at the failing input): the dangling row
`("1", "9")` is not skipped as a whole — after the load, person 1's movie
set contains "9" although "9" is not a key of the movies table, violating
the stated post-load closure contract. -/
theorem c3_partial_row_mutation :
    dictGet c3Store.people "1" = some ⟨"A", "1970", ["9"]⟩ ∧
    dictGet c3Store.movies "9" = none := by
  constructor
  · rfl
  · rfl

/-- C4: for every store and identifier, a search with `source == target`
returns the empty sequence (distance 0) — the goal test fires on the root
node at the first dequeue, before any expansion. -/
theorem c4_self_returns_empty_path (st : Store) (s : String) :
    shortest_path st s s = some (SearchResult.found []) :=
  shortest_path_self st s

/-- C5 (counterexample): on the store loaded from an empty dataset, "b" is
not reachable from "a", yet `shortest_path "a" "b"` does not return the
not-connected sentinel — it raises `KeyError` while expanding the root.  So
"never raises" is false as universally stated. -/
theorem c5_counterexample :
    (∀ d, ¬ ReachesIn (load_data [] [] []) "a" "b" d) ∧
    shortest_path (load_data [] [] []) "a" "b" = some SearchResult.keyError := by
  constructor
  · intro d hr
    have h := reach_absent
      (show dictGet (load_data [] [] []).people "a" = none from rfl) hr
    exact absurd h (by decide)
  · rfl

/-- C5 (amended): on every store satisfying the post-load closure contract,
for every source present in the people table and every target not reachable
from it, `shortest_path` returns the not-connected sentinel — a normal
outcome, never an error and never a path. -/
theorem c5_unreachable_returns_none (st : Store) (source target : String)
    (hmc : moviesClosed st = true) (hsc : starsClosed st = true)
    (hsrc : (dictGet st.people source).isSome = true)
    (hunreach : ∀ d, ¬ ReachesIn st source target d) :
    shortest_path st source target = some SearchResult.notConnected := by
  rcases shortest_path_cases hmc hsc hsrc with ⟨p, n, hsp, hval, hst, hp, hmin⟩ | ⟨hsp, _⟩
  · exfalso
    have hr := walk_reaches (pathFrom_isWalk hval)
    rw [hst] at hr
    exact hunreach _ hr
  · exact hsp

/-- C5 (witness): in `discStore`, person 2 shares no movie with person 1,
and the search reports not-connected. -/
theorem c5_witness :
    shortest_path discStore "1" "2" = some SearchResult.notConnected := by
  have hunreach : ∀ d, ¬ ReachesIn discStore "1" "2" d := by
    intro d hr
    have h2 : ("2" : String) = "1" := reach_closed_singleton (by decide) hr rfl
    exact absurd h2 (by decide)
  exact c5_unreachable_returns_none discStore "1" "2" (by decide) (by decide) (by decide) hunreach

/-- C6: for every store and every pair of identifiers, the search loop of
`shortest_path` terminates within the `|people| + 1` executions of the loop
body that the embedding allots — at most `|people|` expanding iterations
(each moves a fresh people key into the monotonically growing explored set)
before the terminal `Found`/`Exhausted`/`KeyError` step. -/
theorem c6_loop_terminates (st : Store) (source target : String) :
    (shortest_path st source target).isSome = true :=
  shortest_path_isSome st source target

/-- C7: along every reachable loop state, no two frontier nodes share a
state, every frontier node's state is outside the current explored set (so
in particular it was not explored when it was enqueued), and every loop
iteration only ever grows the explored set. -/
theorem c7_frontier_invariants (st : Store) (source target : String)
    (F : List Node) (E : List String) (h : BfsReach st source target F E) :
    ((F.map Node.state).Nodup ∧ ∀ s ∈ F.map Node.state, s ∉ E) ∧
    (∀ F2 E2, BfsStepRel st target F E F2 E2 → E ⊆ E2) := by
  constructor
  · induction h with
    | init =>
      constructor
      · simp
      · simp
    | step hreach hrel ih =>
      obtain ⟨n, rest, nbrs, hF, hne, hnb, hF2, hE2⟩ := hrel
      subst hF
      subst hF2
      subst hE2
      exact step_pres nbrs ih.1 ih.2
  · intro F2 E2 hrel
    obtain ⟨n, rest, nbrs, hF, hne, hnb, hF2, hE2⟩ := hrel
    subst hE2
    intro x hx
    exact List.mem_cons_of_mem _ hx

/-- C7 (witness): the invariants instantiated at the initial state of the
fixture search. -/
theorem c7_witness :
    ((([Node.root "1"] : List Node).map Node.state).Nodup ∧
      ∀ s ∈ ([Node.root "1"] : List Node).map Node.state, s ∉ ([] : List String)) ∧
    (∀ F2 E2, BfsStepRel fixture "3" [Node.root "1"] [] F2 E2 → ([] : List String) ⊆ E2) :=
  c7_frontier_invariants fixture "1" "3" [Node.root "1"] [] BfsReach.init

/-- C8 (counterexample): on `c2Store` — a store `load_data` itself produces
— person "1" is present in the people table, yet `neighbors_for_person "1"`
raises `KeyError` (the dangling movie reference "9" left by the half-skipped
stars row) instead of returning any set of pairs at all.  So the claim as
frozen, quantified over every person present in the people table, is
false. -/
theorem c8_counterexample :
    dictGet c2Store.people "1" = some ⟨"A", "1970", ["9"]⟩ ∧
    ∀ l, neighbors_for_person c2Store "1" ≠ some l := by
  constructor
  · rfl
  · intro l h
    rw [show neighbors_for_person c2Store "1" = none from rfl] at h
    simp at h

/-- C8 (amended): for every person id present in the people table of a
store satisfying the post-load contract — every movie id in a person's
movie set is a movies key (`moviesClosed`) whose star set contains the
person back (`starsSym`) — `neighbors_for_person` returns (never raises)
exactly the set of pairs `(movie_id, person_id)` with `movie_id` among the
person's movies and `person_id` among that movie's stars — including the
self-pair for each of the person's movies.  (The embedding is pure,
matching the no-side-effects part of the claim.) -/
theorem c8_neighbors_characterization (st : Store) (pid : String) (pr : Person)
    (hmc : moviesClosed st = true) (hsym : starsSym st = true)
    (hp : dictGet st.people pid = some pr) :
    ∃ l, neighbors_for_person st pid = some l ∧
      (∀ m q, (m, q) ∈ l ↔
        m ∈ pr.movies ∧ ∃ mv, dictGet st.movies m = some mv ∧ q ∈ mv.stars) ∧
      ∀ m ∈ pr.movies, (m, pid) ∈ l := by
  have hmov := moviesClosed_spec hmc hp
  obtain ⟨l, hl⟩ := Option.isSome_iff_exists.mp (neighbors_isSome_of_person hp hmov)
  obtain ⟨p2, hp2, hfm⟩ := neighbors_some_person hl
  have hpp : pr = p2 := by
    have := hp.symm.trans hp2
    injection this
  subst hpp
  refine ⟨l, hl, fun m q => neighborsFromMovies_mem hfm m q, ?_⟩
  intro m hm
  obtain ⟨mv, hmv⟩ := Option.isSome_iff_exists.mp (hmov m hm)
  have hstar : pid ∈ mv.stars := starsSym_iff.mp hsym (pid, pr) (dictGet_mem hp) m hm mv hmv
  exact (neighborsFromMovies_mem hfm m pid).mpr ⟨hm, mv, hmv, hstar⟩

/-- C8 (witness): the characterization instantiated for person 2 of the
fixture. -/
theorem c8_witness :
    ∃ l, neighbors_for_person fixture "2" = some l ∧
      (∀ m q, (m, q) ∈ l ↔
        m ∈ (Person.mk "B" "1971" ["10", "20"]).movies ∧
          ∃ mv, dictGet fixture.movies m = some mv ∧ q ∈ mv.stars) ∧
      ∀ m ∈ (Person.mk "B" "1971" ["10", "20"]).movies, (m, "2") ∈ l :=
  c8_neighbors_characterization fixture "2" ⟨"B", "1971", ["10", "20"]⟩
    (by decide) (by decide) (by decide)

/-- C9: every found path returned by `shortest_path` over a store built by
`load_data` is a valid walk in the loaded data: each pair `(m, q)` names a
movie of the table whose star set contains both `q` and the preceding
person (the source for the first pair), and if the path is non-empty its
last pair carries the target. -/
theorem c9_found_path_is_valid_walk (prows : List PersonRow) (mrows : List MovieRow)
    (srows : List StarRow) (source target : String) (p : List (String × String))
    (h : shortest_path (load_data prows mrows srows) source target =
      some (SearchResult.found p)) :
    ChainOk (load_data prows mrows srows) source p ∧
    (p ≠ [] → ∃ l2 m, p = l2 ++ [(m, target)]) := by
  have h2 : bfs (load_data prows mrows srows) target
      ((load_data prows mrows srows).people.length + 1) [Node.root source] [] =
      some (SearchResult.found p) := h
  have hcore := bfs_sound_core ((load_data prows mrows srows).people.length + 1)
    [Node.root source] [] (SearchResult.found p)
    (BfsInv_init (load_data prows mrows srows) source target) h2
  obtain ⟨n, hval, hst, hp, _⟩ := hcore.1 p rfl
  have hw := pathFrom_isWalk hval
  rw [← hp, hst] at hw
  constructor
  · exact ChainOk_of_walk (load_data_starsSym prows mrows srows) hw
  · intro hne
    exact walk_last hw hne

/-- C9 (witness): the fixture's found path `[(10,2),(20,3)]` is a valid
walk from 1 ending at target 3. -/
theorem c9_witness :
    ChainOk (load_data fixturePRows fixtureMRows fixtureSRows) "1"
      [("10", "2"), ("20", "3")] ∧
    ([("10", "2"), ("20", "3")] ≠ ([] : List (String × String)) →
      ∃ l2 m, [("10", "2"), ("20", "3")] = l2 ++ [(m, "3")]) :=
  c9_found_path_is_valid_walk fixturePRows fixtureMRows fixtureSRows "1" "3"
    [("10", "2"), ("20", "3")] (by decide)

/-- C10: if the source id is not a key of the people table, then a search
with `source ≠ target` fails with `KeyError` when expanding the root instead
of returning the not-connected sentinel, whereas a search with
`source == target` returns the empty path without consulting the store. -/
theorem c10_absent_source_behaviour (st : Store) (source target : String)
    (h : dictGet st.people source = none) :
    (source ≠ target → shortest_path st source target = some SearchResult.keyError) ∧
    shortest_path st source source = some (SearchResult.found []) :=
  ⟨fun hne => shortest_path_absent h hne, shortest_path_self st source⟩

/-- C10 (witness): instantiated at the fixture with the absent id "99". -/
theorem c10_witness :
    ("99" ≠ "1" → shortest_path fixture "99" "1" = some SearchResult.keyError) ∧
    shortest_path fixture "99" "99" = some (SearchResult.found []) :=
  c10_absent_source_behaviour fixture "99" "1" (by decide)

end Degrees
